import Mathlib

/-!
Verification development for the `nyt-spelling-bee` repository, a Rust/WASM
rules engine for the NYT Spelling Bee puzzle. The single source file
`src/spellingbee.rs` defines the `SpellingBeeGame` struct with its `play`,
scoring and query operations; this file gives a shallow embedding of that
code and proves the specified properties about it.

Modelling conventions:
- Rust `&str` / `String` words are modelled as `List Char` (all words in
  this domain are lowercase ASCII, where Rust's byte length `len()`
  coincides with the character count);
- `BTreeSet<char>` is modelled as `Finset Char` and `BTreeSet<String>` as
  `Finset (List Char)` (a `BTreeSet` is a finite set; its sorted iteration
  order is not observable in any of the operations modelled here, since the
  only iterations are an `all` over the optional letters and a `sum` over
  the word set, both order-insensitive);
- `usize` is modelled as `Nat` (scores and lengths in this domain are tiny,
  far from any overflow boundary);
- the Rust method `play(&mut self, word)` mutates the receiver; it is
  modelled as a pure function returning the `PlayResult` together with the
  updated state.
-/

/-- Rust `MIN_LENGTH`: the minimum length of a play. -/
def MIN_LENGTH : Nat := 4

/-- Rust `PANGRAM_BONUS`: the bonus for playing a pangram. -/
def PANGRAM_BONUS : Nat := 7

/-- Rust enum `PlayResult`: the possible outcomes of playing a move. -/
inductive PlayResult where
  | Valid
  | AlreadyPlayed
  | InvalidWord
  | InvalidLength
  | InvalidLetters
deriving DecidableEq, Repr

/-- Rust struct `SpellingBeeGame`: optional letters, the required letter,
the current score, the words played so far, and the valid words accepted by
the game (the Answer Set). -/
structure SpellingBeeGame where
  optional_letters : Finset Char
  required_letter : Char
  score : Nat
  played_so_far : Finset (List Char)
  words : Finset (List Char)
deriving DecidableEq

/-- Rust `SpellingBeeGame::has_valid_letters`: the word contains the
required letter and every character is an optional letter or the required
letter. -/
def has_valid_letters (g : SpellingBeeGame) (word : List Char) : Bool :=
  word.contains g.required_letter &&
    word.all (fun c => decide (c ∈ g.optional_letters) || c == g.required_letter)

/-- Rust `SpellingBeeGame::is_valid_word`: membership in the answer list. -/
def is_valid_word (g : SpellingBeeGame) (word : List Char) : Bool :=
  decide (word ∈ g.words)

/-- Rust `SpellingBeeGame::is_pangram`: the word is a valid word, contains
the required letter, and contains every optional letter. -/
def is_pangram (g : SpellingBeeGame) (word : List Char) : Bool :=
  is_valid_word g word &&
    word.contains g.required_letter &&
    decide (∀ c ∈ g.optional_letters, word.contains c = true)

/-- Rust `SpellingBeeGame::score_word`: base score from the length (0 below
`MIN_LENGTH`, 1 at exactly `MIN_LENGTH`, the length above it), plus
`PANGRAM_BONUS` when the word is a pangram. -/
def score_word (g : SpellingBeeGame) (word : List Char) : Nat :=
  let base :=
    if word.length < MIN_LENGTH then 0
    else if word.length = MIN_LENGTH then 1
    else word.length
  if is_pangram g word then base + PANGRAM_BONUS else base

/-- Rust `SpellingBeeGame::play`: the ordered chain of checks, first match
wins; only the final (accepting) branch updates `played_so_far` and
`score`. -/
def play (g : SpellingBeeGame) (word : List Char) : PlayResult × SpellingBeeGame :=
  if word.length < MIN_LENGTH then (.InvalidLength, g)
  else if !has_valid_letters g word then (.InvalidLetters, g)
  else if !is_valid_word g word then (.InvalidWord, g)
  else if decide (word ∈ g.played_so_far) then (.AlreadyPlayed, g)
  else (.Valid, { g with
      played_so_far := insert word g.played_so_far,
      score := g.score + score_word g word })

/-- Rust `SpellingBeeGame::score`: the current score. -/
def score (g : SpellingBeeGame) : Nat :=
  g.score

/-- Rust `SpellingBeeGame::required_letter`: the required central letter. -/
def required_letter (g : SpellingBeeGame) : Char :=
  g.required_letter

/-- Rust `SpellingBeeGame::max_score`: the sum of `score_word` over every
word of the answer list. -/
def max_score (g : SpellingBeeGame) : Nat :=
  g.words.sum (fun w => score_word g w)

/-- Modelled from the spec: the lexicon filtering performed at construction
time by the external `lexi` crate (`wordlist::parse_strings`,
`only_using_letters`, `with_letter`, `with_more_length`), whose sources are
not part of this repository. Per the spec's Lexicon Filter: candidates
minus exclusions (normalized to lowercase), keeping only words built from
allowed letters, containing the required letter, of length at least
`MIN_LENGTH`, collapsed into a set. -/
def lexiconFilter (main_words swears : List (List Char)) (allowed : Finset Char)
    (required : Char) : Finset (List Char) :=
  (((main_words.map (fun w => w.map Char.toLower)).filter
      (fun w => !(swears.map (fun s => s.map Char.toLower)).contains w &&
        w.all (fun c => decide (c ∈ allowed)) &&
        w.contains required &&
        decide (MIN_LENGTH ≤ w.length))).toFinset)

/-- Rust `SpellingBeeGame::new`: collects the optional letters into a set,
runs the lexicon filter with allowed letters = required plus optional, and
starts with score 0 and no played words. -/
def SpellingBeeGame.new (optional_letters : List Char) (required_letter : Char)
    (main_words swears : List (List Char)) : SpellingBeeGame :=
  { optional_letters := optional_letters.toFinset
    required_letter := required_letter
    score := 0
    played_so_far := ∅
    words := lexiconFilter main_words swears
      (insert required_letter optional_letters.toFinset) required_letter }

/-- Runs a sequence of plays from a starting state, keeping the final
state. -/
def playAll (g : SpellingBeeGame) (ws : List (List Char)) : SpellingBeeGame :=
  ws.foldl (fun g w => (play g w).2) g

/-- Unfolding lemma: `has_valid_letters` as a proposition. -/
theorem has_valid_letters_iff (g : SpellingBeeGame) (w : List Char) :
    has_valid_letters g w = true ↔
      g.required_letter ∈ w ∧ ∀ c ∈ w, c ∈ g.optional_letters ∨ c = g.required_letter := by
  simp [has_valid_letters, List.contains, List.all_eq_true]

/-- Unfolding lemma: `is_valid_word` as a proposition. -/
theorem is_valid_word_iff (g : SpellingBeeGame) (w : List Char) :
    is_valid_word g w = true ↔ w ∈ g.words := by
  simp [is_valid_word]

/-- Unfolding lemma: `is_pangram` as a proposition. -/
theorem is_pangram_iff (g : SpellingBeeGame) (w : List Char) :
    is_pangram g w = true ↔
      w ∈ g.words ∧ g.required_letter ∈ w ∧ ∀ c ∈ g.optional_letters, c ∈ w := by
  simp [is_pangram, is_valid_word, List.contains, and_assoc]

/-- The optional letters of the repository's own test game. -/
def lettersClwgro : List Char :=
  "clwgro".toList

/-- The word "will" from the repository's own test. -/
def wWill : List Char :=
  "will".toList

/-- The word "cowgirl" from the repository's own test. -/
def wCowgirl : List Char :=
  "cowgirl".toList

/-- The word "oil" from the repository's own test (too short). -/
def wOil : List Char :=
  "oil".toList

/-- A word of disallowed letters for the test game. -/
def wAaaaa : List Char :=
  "aaaaa".toList

/-- A concrete game used to exercise the state-change theorem: the test
game's letters with a two-word answer list. -/
def gC2 : SpellingBeeGame :=
  { optional_letters := lettersClwgro.toFinset
    required_letter := 'i'
    score := 0
    played_so_far := ∅
    words := {wWill, wCowgirl} }

example : (play gC2 wOil).1 = PlayResult.InvalidLength := by decide
example : (play gC2 wWill).1 = PlayResult.Valid := by decide
example : (play gC2 wCowgirl).1 = PlayResult.Valid ∧ score_word gC2 wCowgirl = 14 := by decide

/-- Claim C1: `play` evaluates its checks in the fixed priority order
length > letters > dictionary > duplicate > accept, first match wins: a
word shorter than 4 gives `InvalidLength` even if it also uses disallowed
letters; else a word using a character outside the Letter Set or omitting
the required letter gives `InvalidLetters`; else a word not in the Answer
Set gives `InvalidWord`; else a word already in the Played Set gives
`AlreadyPlayed`; else `Valid`. -/
theorem play_check_priority (g : SpellingBeeGame) (w : List Char) :
    (play g w).1 =
      if w.length < 4 then PlayResult.InvalidLength
      else if (∃ c ∈ w, c ∉ g.optional_letters ∧ c ≠ g.required_letter) ∨
          g.required_letter ∉ w then PlayResult.InvalidLetters
      else if w ∉ g.words then PlayResult.InvalidWord
      else if w ∈ g.played_so_far then PlayResult.AlreadyPlayed
      else PlayResult.Valid := by
  have hmin : MIN_LENGTH = 4 := rfl
  have hl := has_valid_letters_iff g w
  have hv := is_valid_word_iff g w
  simp only [play, hmin, apply_ite Prod.fst]
  by_cases h1 : w.length < 4
  · simp [h1]
  · simp only [if_neg h1]
    by_cases h2 : (∃ c ∈ w, c ∉ g.optional_letters ∧ c ≠ g.required_letter) ∨
        g.required_letter ∉ w
    · have : ¬ has_valid_letters g w = true := by
        rw [hl]
        push_neg
        intro hreq
        rcases h2 with ⟨c, hc, hno, hne⟩ | hno
        · exact ⟨c, hc, by tauto⟩
        · exact absurd hreq hno
      simp [this, h2]
    · have hletters : has_valid_letters g w = true := by
        rw [hl]
        push_neg at h2
        exact ⟨h2.2, fun c hc => by
          by_cases hco : c ∈ g.optional_letters
          · exact Or.inl hco
          · exact Or.inr (h2.1 c hc hco)⟩
      by_cases h3 : w ∈ g.words
      · have hval : is_valid_word g w = true := hv.mpr h3
        by_cases h4 : w ∈ g.played_so_far
        · simp [hletters, hval, h2, h3, h4]
        · simp [hletters, hval, h2, h3, h4]
      · have hval : is_valid_word g w = false := by
          rw [Bool.eq_false_iff]
          intro hh
          exact h3 (hv.mp hh)
        simp [hletters, hval, h2, h3]

/-- Claim C2: if `play` returns anything other than `Valid` the entire
state is exactly as before the call; the `Valid` branch returns the state
with the word inserted into the Played Set and `score_word` of it added to
the Score. -/
theorem play_mutates_only_on_valid (g : SpellingBeeGame) (w : List Char) :
    ((play g w).1 ≠ PlayResult.Valid → (play g w).2 = g) ∧
    ((play g w).1 = PlayResult.Valid →
      (play g w).2 = { g with played_so_far := insert w g.played_so_far,
                              score := g.score + score_word g w }) := by
  unfold play
  split_ifs <;> simp

/-- Witness for the state-change claim at concrete inputs: "oil" is
rejected and leaves the test game unchanged; "will" is accepted and updates
exactly the Played Set and Score. -/
theorem play_mutates_only_on_valid_witness :
    (play gC2 wOil).2 = gC2 ∧
    (play gC2 wWill).2 = { gC2 with played_so_far := insert wWill gC2.played_so_far,
                                    score := gC2.score + score_word gC2 wWill } :=
  ⟨(play_mutates_only_on_valid gC2 wOil).1 (by decide),
   (play_mutates_only_on_valid gC2 wWill).2 (by decide)⟩

/-- Helper: one `play` call never changes the Answer Set, the optional
letters, or the required letter. -/
theorem play_keeps_config (g : SpellingBeeGame) (w : List Char) :
    (play g w).2.words = g.words ∧
    (play g w).2.optional_letters = g.optional_letters ∧
    (play g w).2.required_letter = g.required_letter := by
  unfold play
  split_ifs <;> simp

/-- Helper: a whole sequence of `play` calls never changes the Answer Set,
the optional letters, or the required letter. -/
theorem playAll_keeps_config (g : SpellingBeeGame) (ws : List (List Char)) :
    (playAll g ws).words = g.words ∧
    (playAll g ws).optional_letters = g.optional_letters ∧
    (playAll g ws).required_letter = g.required_letter := by
  induction ws generalizing g with
  | nil => exact ⟨rfl, rfl, rfl⟩
  | cons w ws ih =>
    have hp := play_keeps_config g w
    have hi := ih (play g w).2
    exact ⟨hi.1.trans hp.1, hi.2.1.trans hp.2.1, hi.2.2.trans hp.2.2⟩

/-- Helper: `score_word` only reads the Answer Set, the optional letters
and the required letter, so it agrees on any two states sharing them. -/
theorem score_word_congr (g g' : SpellingBeeGame) (hw : g'.words = g.words)
    (ho : g'.optional_letters = g.optional_letters)
    (hr : g'.required_letter = g.required_letter) (w : List Char) :
    score_word g' w = score_word g w := by
  simp [score_word, is_pangram, is_valid_word, hw, ho, hr]

/-- A concrete game with the test letters but an empty Answer Set. -/
def gNoWords : SpellingBeeGame :=
  { optional_letters := lettersClwgro.toFinset
    required_letter := 'i'
    score := 0
    played_so_far := ∅
    words := ∅ }

/-- Claim C3 counterexample: "cowgirl" contains every optional letter of
the game (and the required one), yet, not being in the Answer Set, it
receives no pangram bonus: `score_word` gives the bare base 7 of this
7-letter word, where the claim predicts base + 7. -/
theorem score_word_bonus_counterexample :
    (∀ c ∈ gNoWords.optional_letters, c ∈ wCowgirl) ∧
    wCowgirl.length = 7 ∧
    score_word gNoWords wCowgirl ≠ 7 + PANGRAM_BONUS := by decide

/-- Claim C3 (amended): `score_word` is a pure function of the word and the
immutable configuration, independent of play history (Played Set and
Score): it equals base plus a pangram bonus of `PANGRAM_BONUS` (7) added
when `is_pangram` holds — that is, when the word is in the Answer Set,
contains the required letter, and contains every optional letter at least
once — where base = 0 if length < 4, 1 if length = 4, and length if
length > 4. -/
theorem score_word_spec (g g' : SpellingBeeGame) (w : List Char)
    (hw : g'.words = g.words) (ho : g'.optional_letters = g.optional_letters)
    (hr : g'.required_letter = g.required_letter) :
    score_word g w =
      (if w.length < 4 then 0 else if w.length = 4 then 1 else w.length) +
      (if w ∈ g.words ∧ g.required_letter ∈ w ∧ (∀ c ∈ g.optional_letters, c ∈ w)
        then PANGRAM_BONUS else 0) ∧
    score_word g' w = score_word g w := by
  constructor
  · have hp := is_pangram_iff g w
    by_cases h : w ∈ g.words ∧ g.required_letter ∈ w ∧ (∀ c ∈ g.optional_letters, c ∈ w)
    · obtain ⟨h1, h2, h3⟩ := h
      have hpan : is_pangram g w = true := hp.mpr ⟨h1, h2, h3⟩
      simp [score_word, hpan, h1, h2, MIN_LENGTH]
      rw [if_pos h3]
    · have hpan : is_pangram g w = false := by
        rw [Bool.eq_false_iff]
        intro hh
        exact h (hp.mp hh)
      simp [score_word, hpan, h, MIN_LENGTH]
  · exact score_word_congr g g' hw ho hr w

/-- A concrete game whose Answer Set is exactly "cowgirl". -/
def gC3 : SpellingBeeGame :=
  { optional_letters := lettersClwgro.toFinset
    required_letter := 'i'
    score := 0
    played_so_far := ∅
    words := {wCowgirl} }

/-- The same game after some unrelated play history. -/
def gC3var : SpellingBeeGame :=
  { gC3 with score := 99, played_so_far := {wWill} }

/-- Witness for the amended scoring claim at a concrete input: "cowgirl" in
a game that contains it, compared across two different play histories. -/
theorem score_word_spec_witness :
    score_word gC3 wCowgirl =
      (if wCowgirl.length < 4 then 0 else if wCowgirl.length = 4 then 1 else wCowgirl.length) +
      (if wCowgirl ∈ gC3.words ∧ gC3.required_letter ∈ wCowgirl ∧
          (∀ c ∈ gC3.optional_letters, c ∈ wCowgirl) then PANGRAM_BONUS else 0) ∧
    score_word gC3var wCowgirl = score_word gC3 wCowgirl :=
  score_word_spec gC3 gC3var wCowgirl rfl rfl rfl

/-- Claim C4 (code bug): contrary to the claim and to the source's own doc
comment on `score_word` ("Returns 0 for invalid words"), a word that fails
validity — here "aaaaa", which is not in the Answer Set, uses disallowed
letters and omits the required letter — still scores its base: 5, not 0. -/
theorem score_word_invalid_nonzero :
    wAaaaa ∉ gNoWords.words ∧
    has_valid_letters gNoWords wAaaaa = false ∧
    wAaaaa.length = 5 ∧
    score_word gNoWords wAaaaa = 5 := by decide

/-- Claim C5: `is_pangram` returns true iff the word is in the Answer Set,
contains the required letter, and contains every optional letter at least
once; the result is independent of the Played Set and of play history. -/
theorem is_pangram_spec (g : SpellingBeeGame) (w : List Char)
    (p : Finset (List Char)) (s : Nat) :
    (is_pangram g w = true ↔
      w ∈ g.words ∧ g.required_letter ∈ w ∧ ∀ c ∈ g.optional_letters, c ∈ w) ∧
    is_pangram { g with played_so_far := p, score := s } w = is_pangram g w :=
  ⟨is_pangram_iff g w, rfl⟩

/-- Session invariant: the Played Set is inside the Answer Set and the
Score is the sum of `score_word` over the Played Set. -/
def SessionInv (g : SpellingBeeGame) : Prop :=
  g.played_so_far ⊆ g.words ∧
    g.score = g.played_so_far.sum (fun w => score_word g w)

/-- Helper: freshly constructed sessions satisfy the invariant. -/
theorem sessionInv_new (ol : List Char) (r : Char) (mw sw : List (List Char)) :
    SessionInv (SpellingBeeGame.new ol r mw sw) :=
  ⟨Finset.empty_subset _, by simp [SpellingBeeGame.new]⟩

/-- Helper: `play` preserves the session invariant. -/
theorem sessionInv_play (g : SpellingBeeGame) (hg : SessionInv g) (w : List Char) :
    SessionInv (play g w).2 := by
  unfold play
  split_ifs with h1 h2 h3 h4
  · exact hg
  · exact hg
  · exact hg
  · exact hg
  · obtain ⟨hsub, hscore⟩ := hg
    simp only [Bool.not_eq_true'] at h3
    have hw : w ∈ g.words := by
      have := is_valid_word_iff g w
      simp [is_valid_word] at h3
      exact h3
    simp only [decide_eq_true_eq] at h4
    refine ⟨Finset.insert_subset_iff.mpr ⟨hw, hsub⟩, ?_⟩
    have hcong : ∀ x ∈ insert w g.played_so_far,
        score_word { g with played_so_far := insert w g.played_so_far,
                            score := g.score + score_word g w } x = score_word g x :=
      fun x _ => score_word_congr g _ rfl rfl rfl x
    show g.score + score_word g w =
      (insert w g.played_so_far).sum (fun x =>
        score_word { g with played_so_far := insert w g.played_so_far,
                            score := g.score + score_word g w } x)
    rw [Finset.sum_congr rfl hcong, Finset.sum_insert h4, hscore]
    omega

/-- Helper: any play sequence preserves the session invariant. -/
theorem sessionInv_playAll (g : SpellingBeeGame) (hg : SessionInv g) (ws : List (List Char)) :
    SessionInv (playAll g ws) := by
  induction ws generalizing g with
  | nil => exact hg
  | cons w ws ih => exact ih (play g w).2 (sessionInv_play g hg w)

/-- Helper: under the invariant, the score never exceeds the maximum. -/
theorem score_le_max_score_of_inv (g : SpellingBeeGame) (hg : SessionInv g) :
    g.score ≤ max_score g := by
  rw [hg.2, max_score]
  exact Finset.sum_le_sum_of_subset hg.1

/-- Helper: a single play never decreases the score. -/
theorem score_mono_step (g : SpellingBeeGame) (w : List Char) :
    g.score ≤ (play g w).2.score := by
  unfold play
  split_ifs <;> simp

/-- Helper: a play sequence never decreases the score. -/
theorem score_mono_playAll (g : SpellingBeeGame) (ws : List (List Char)) :
    g.score ≤ (playAll g ws).score := by
  induction ws generalizing g with
  | nil => exact le_refl _
  | cons w ws ih => exact le_trans (score_mono_step g w) (ih (play g w).2)

/-- Helper: running an appended sequence of plays is running the parts in
order. -/
theorem playAll_append (g : SpellingBeeGame) (ws1 ws2 : List (List Char)) :
    playAll g (ws1 ++ ws2) = playAll (playAll g ws1) ws2 := by
  simp [playAll, List.foldl_append]

/-- Claim C6: for every session constructed by `new` and every finite
sequence of play calls applied to it, `max_score` is at least `score`
after every call (that is, after any prefix ws1 of the sequence), and the
score never decreases as further calls ws2 are made. -/
theorem score_le_max_and_monotone (ol : List Char) (r : Char)
    (mw sw : List (List Char)) (ws1 ws2 : List (List Char)) :
    score (playAll (SpellingBeeGame.new ol r mw sw) ws1) ≤
      max_score (playAll (SpellingBeeGame.new ol r mw sw) ws1) ∧
    score (playAll (SpellingBeeGame.new ol r mw sw) ws1) ≤
      score (playAll (SpellingBeeGame.new ol r mw sw) (ws1 ++ ws2)) := by
  constructor
  · exact score_le_max_score_of_inv _ (sessionInv_playAll _ (sessionInv_new ol r mw sw) ws1)
  · rw [playAll_append]
    exact score_mono_playAll _ ws2

/-- Helper: characterization of the accepting branch of `play`. -/
theorem play_valid_iff (g : SpellingBeeGame) (w : List Char) :
    (play g w).1 = PlayResult.Valid ↔
      ¬ w.length < MIN_LENGTH ∧ has_valid_letters g w = true ∧
        is_valid_word g w = true ∧ w ∉ g.played_so_far := by
  unfold play
  split_ifs with h1 h2 h3 h4 <;> simp_all

/-- Helper: the state after an accepted play. -/
theorem play_snd_of_valid (g : SpellingBeeGame) (w : List Char)
    (h : (play g w).1 = PlayResult.Valid) :
    (play g w).2 = { g with played_so_far := insert w g.played_so_far,
                            score := g.score + score_word g w } := by
  unfold play at h ⊢
  split_ifs at h ⊢
  simp_all

/-- Claim C7: after a `Valid` play of a word, an immediately following play
of the same word returns `AlreadyPlayed`, and the score after the second
call equals the score after the first. -/
theorem play_twice_same_word (g : SpellingBeeGame) (w : List Char)
    (h : (play g w).1 = PlayResult.Valid) :
    (play (play g w).2 w).1 = PlayResult.AlreadyPlayed ∧
    score (play (play g w).2 w).2 = score (play g w).2 := by
  obtain ⟨h1, h2, h3, h4⟩ := (play_valid_iff g w).mp h
  rw [play_snd_of_valid g w h]
  set g' : SpellingBeeGame :=
    { g with played_so_far := insert w g.played_so_far,
             score := g.score + score_word g w } with hg'
  have e2 : has_valid_letters g' w = has_valid_letters g w := rfl
  have e3 : is_valid_word g' w = is_valid_word g w := rfl
  have e4 : w ∈ g'.played_so_far := by
    rw [hg']
    exact Finset.mem_insert_self w g.played_so_far
  constructor
  · show (play g' w).1 = PlayResult.AlreadyPlayed
    unfold play
    simp [h1, e2, h2, e3, h3, e4]
  · show score (play g' w).2 = score g'
    unfold play
    simp [h1, e2, h2, e3, h3, e4]

/-- A concrete game whose Answer Set is exactly "will". -/
def gC7 : SpellingBeeGame :=
  { optional_letters := lettersClwgro.toFinset
    required_letter := 'i'
    score := 0
    played_so_far := ∅
    words := {wWill} }

/-- Witness for the replay claim at a concrete input: "will" played twice
in the game whose Answer Set is exactly "will". -/
theorem play_twice_same_word_witness :
    (play (play gC7 wWill).2 wWill).1 = PlayResult.AlreadyPlayed ∧
    score (play (play gC7 wWill).2 wWill).2 = score (play gC7 wWill).2 :=
  play_twice_same_word gC7 wWill (by decide)

/-- The letters 'i' and 'a', used to construct a session whose required
letter reappears among the optional ones. -/
def lettersIa : List Char :=
  "ia".toList

/-- Claim C8 counterexample: constructing a session whose required letter
'i' also appears in the optional-letters argument stores 'i' in the
optional-letter set, violating the claimed invariant at the moment of
construction. -/
theorem required_in_optional_counterexample :
    (SpellingBeeGame.new lettersIa 'i' [] []).required_letter ∈
      (SpellingBeeGame.new lettersIa 'i' [] []).optional_letters := by decide

/-- Claim C8 (amended): if the required letter does not occur in the
optional-letters argument, then it is never present in the stored
optional-letter set, and this remains true for the lifetime of the session
(no sequence of plays changes the letter sets); if it does occur in the
argument, it is stored in the optional set as well (see the
counterexample). -/
theorem required_not_in_optional (ol : List Char) (r : Char)
    (mw sw : List (List Char)) (ws : List (List Char)) (h : r ∉ ol) :
    (playAll (SpellingBeeGame.new ol r mw sw) ws).required_letter ∉
      (playAll (SpellingBeeGame.new ol r mw sw) ws).optional_letters := by
  have hc := playAll_keeps_config (SpellingBeeGame.new ol r mw sw) ws
  rw [hc.2.1, hc.2.2]
  simp [SpellingBeeGame.new, List.mem_toFinset]
  exact h

/-- Witness for the amended letter-set claim: the test game's letters, with
one play performed. -/
theorem required_not_in_optional_witness :
    'i' ∉ lettersClwgro ∧
    (playAll (SpellingBeeGame.new lettersClwgro 'i' [] []) [wWill]).required_letter ∉
      (playAll (SpellingBeeGame.new lettersClwgro 'i' [] []) [wWill]).optional_letters :=
  ⟨by decide, required_not_in_optional lettersClwgro 'i' [] [] [wWill] (by decide)⟩

/-- Claim C9: in any session whose Answer Set is empty, `max_score` is 0
and every play is rejected: the result is one of the three invalid results
(never `Valid`, never `AlreadyPlayed`), the state is unchanged, and any
word surviving the earlier length and letter checks is rejected as
`InvalidWord`. -/
theorem empty_answer_set_rejects (g : SpellingBeeGame) (hg : g.words = ∅)
    (w : List Char) :
    max_score g = 0 ∧
    ((play g w).1 = PlayResult.InvalidLength ∨
      (play g w).1 = PlayResult.InvalidLetters ∨
      (play g w).1 = PlayResult.InvalidWord) ∧
    (play g w).2 = g ∧
    (¬ w.length < MIN_LENGTH → has_valid_letters g w = true →
      (play g w).1 = PlayResult.InvalidWord) := by
  have hv : is_valid_word g w = false := by
    simp [is_valid_word, hg]
  refine ⟨?_, ?_, ?_, ?_⟩
  · simp [max_score, hg]
  · unfold play
    split_ifs <;> simp_all
  · unfold play
    split_ifs <;> simp_all
  · intro h1 h2
    unfold play
    simp [h1, h2, hv]

/-- Witness for the empty-Answer-Set claim: the concrete empty game with
the in-dictionary-shaped word "will". -/
theorem empty_answer_set_rejects_witness :
    gNoWords.words = ∅ ∧
    (max_score gNoWords = 0 ∧
      ((play gNoWords wWill).1 = PlayResult.InvalidLength ∨
        (play gNoWords wWill).1 = PlayResult.InvalidLetters ∨
        (play gNoWords wWill).1 = PlayResult.InvalidWord) ∧
      (play gNoWords wWill).2 = gNoWords ∧
      (¬ wWill.length < MIN_LENGTH → has_valid_letters gNoWords wWill = true →
        (play gNoWords wWill).1 = PlayResult.InvalidWord)) :=
  ⟨rfl, empty_answer_set_rejects gNoWords rfl wWill⟩

/-- Claim C10: a `play` call never changes the Answer Set, the
optional-letter set, or the required letter, whatever the word and the
result; consequently `max_score` and `required_letter` return after any
sequence of plays exactly what they returned before it. -/
theorem play_config_invariant (g : SpellingBeeGame) (w : List Char)
    (ws : List (List Char)) :
    (play g w).2.words = g.words ∧
    (play g w).2.optional_letters = g.optional_letters ∧
    (play g w).2.required_letter = g.required_letter ∧
    max_score (playAll g ws) = max_score g ∧
    required_letter (playAll g ws) = required_letter g := by
  have hp := play_keeps_config g w
  have ha := playAll_keeps_config g ws
  refine ⟨hp.1, hp.2.1, hp.2.2, ?_, ?_⟩
  · rw [max_score, max_score, ha.1]
    exact Finset.sum_congr rfl fun x _ => score_word_congr g _ ha.1 ha.2.1 ha.2.2 x
  · exact ha.2.2
